import Mathlib

/-!
# Verification of the encrypted vault engine (src/main.js)

Shallow embedding of the password-manager core: hex encoding/decoding as
performed by Node `Buffer.from(s, 'hex')` / `buf.toString('hex')`, an
idealized model of PBKDF2 key derivation and AES-256-GCM authenticated
encryption, the key cache of `deriveKey` / `deriveKeyAsync`, the vault
CRUD handlers, and the batched decrypt pipeline of the `get-passwords`
handler.

Modeling conventions:
* Bytes are `Nat` values `< 256`; buffers are `List Nat`.
* Hex decoding is lenient exactly as documented for Node buffers:
  decoding stops at the first character that is not a hex digit, and a
  trailing odd nibble is dropped.
* PBKDF2 is deterministic and collision-free in (password, salt); it is
  modeled as the pair itself (`DerivedKey`).
* GCM is idealized: the ciphertext is an injective byte encoding of the
  plaintext (standing in for the keystream XOR, which is a bijection on
  byte strings of the payload), and the authentication tag is an
  injective byte encoding of (password, salt, iv, ciphertext).  The
  injectivity mirrors the overwhelming-probability collision-freeness of
  the real primitives; decryption releases the plaintext iff the stored
  tag equals the recomputed tag, and fails otherwise, exactly like
  `decipher.final()`.
* Randomness (`crypto.randomBytes`, `Date.now()`, `Math.random()`) is
  passed in explicitly as arguments.
-/

/-! ## Hex encoding and lenient hex decoding (Node `Buffer` semantics) -/

/-- Lowercase hex digit for a value `< 16`, as produced by
`buf.toString('hex')`. -/
def hexDigitChar (n : Nat) : Char :=
  if n < 10 then Char.ofNat (48 + n) else Char.ofNat (87 + n)

/-- Hex-encode a byte list, two lowercase digits per byte. -/
def hexEncodeBytes : List Nat → List Char
  | [] => []
  | b :: rest => hexDigitChar (b / 16 % 16) :: hexDigitChar (b % 16) :: hexEncodeBytes rest

/-- `buf.toString('hex')`. -/
def hexEncode (l : List Nat) : String := String.mk (hexEncodeBytes l)

/-- Value of one hex digit character (upper or lower case), or `none`. -/
def hexVal? (c : Char) : Option Nat :=
  if 48 ≤ c.toNat ∧ c.toNat ≤ 57 then some (c.toNat - 48)
  else if 97 ≤ c.toNat ∧ c.toNat ≤ 102 then some (c.toNat - 87)
  else if 65 ≤ c.toNat ∧ c.toNat ≤ 70 then some (c.toNat - 55)
  else none

/-- Lenient hex decoding of a character list: bytes are read two digits at
a time, and decoding stops at the first invalid or incomplete pair.  This
is the documented behaviour of Node `Buffer.from(string, 'hex')`. -/
def hexDecodeBytes : List Char → List Nat
  | c1 :: c2 :: rest =>
    match hexVal? c1, hexVal? c2 with
    | some hi, some lo => (16 * hi + lo) :: hexDecodeBytes rest
    | _, _ => []
  | _ => []

/-- `Buffer.from(s, 'hex')`. -/
def hexDecode (s : String) : List Nat := hexDecodeBytes s.data

/-- A string is well-formed hex when every character is a hex digit and the
length is even.  (The code never checks this; Node decodes leniently.) -/
def validHex (s : String) : Prop :=
  (∀ c ∈ s.data, (hexVal? c).isSome) ∧ s.data.length % 2 = 0

theorem hexVal?_hexDigitChar {n : Nat} (h : n < 16) :
    hexVal? (hexDigitChar n) = some n := by
  interval_cases n <;> decide

theorem hexDigitChar_ne_colon {n : Nat} (h : n < 16) :
    hexDigitChar n ≠ ':' := by
  interval_cases n <;> decide

/-- Decoding an encoded byte list followed by anything decodes the bytes
and continues into the tail. -/
theorem hexDecodeBytes_encode_append (l : List Nat) (t : List Char)
    (h : ∀ b ∈ l, b < 256) :
    hexDecodeBytes (hexEncodeBytes l ++ t) = l ++ hexDecodeBytes t := by
  induction l with
  | nil => simp [hexEncodeBytes]
  | cons b rest ih =>
    have hb : b < 256 := h b (List.mem_cons_self b rest)
    have hrest : ∀ x ∈ rest, x < 256 := fun x hx => h x (List.mem_cons_of_mem b hx)
    have h1 : b / 16 % 16 < 16 := Nat.mod_lt _ (by omega)
    have h2 : b % 16 < 16 := Nat.mod_lt _ (by omega)
    simp only [hexEncodeBytes, List.cons_append, hexDecodeBytes,
      hexVal?_hexDigitChar h1, hexVal?_hexDigitChar h2]
    have hdiv : b / 16 < 16 := by omega
    have hbyte : 16 * (b / 16 % 16) + b % 16 = b := by
      rw [Nat.mod_eq_of_lt hdiv]
      omega
    rw [hbyte]
    simp only [List.append_eq]
    rw [ih hrest]

theorem hexDecodeBytes_encode (l : List Nat) (h : ∀ b ∈ l, b < 256) :
    hexDecodeBytes (hexEncodeBytes l) = l := by
  have := hexDecodeBytes_encode_append l [] h
  simpa [hexDecodeBytes] using this

/-- Round trip through a hex string. -/
theorem hexDecode_hexEncode (l : List Nat) (h : ∀ b ∈ l, b < 256) :
    hexDecode (hexEncode l) = l := by
  simpa [hexDecode, hexEncode] using hexDecodeBytes_encode l h

theorem hexVal?_lt {c : Char} {v : Nat} (h : hexVal? c = some v) : v < 16 := by
  unfold hexVal? at h
  split_ifs at h with h1 h2 h3
  · injection h with h'
    omega
  · injection h with h'
    omega
  · injection h with h'
    omega

/-- Every byte produced by lenient hex decoding is `< 256`. -/
theorem hexDecodeBytes_lt : ∀ (l : List Char), ∀ b ∈ hexDecodeBytes l, b < 256
  | [] => by simp [hexDecodeBytes]
  | [_] => by simp [hexDecodeBytes]
  | c1 :: c2 :: rest => by
    intro b hb
    simp only [hexDecodeBytes] at hb
    cases hv1 : hexVal? c1 with
    | none => rw [hv1] at hb; simp at hb
    | some hi =>
      cases hv2 : hexVal? c2 with
      | none => rw [hv1, hv2] at hb; simp at hb
      | some lo =>
        rw [hv1, hv2] at hb
        simp only [List.mem_cons] at hb
        rcases hb with hb | hb
        · have := hexVal?_lt hv1
          have := hexVal?_lt hv2
          omega
        · exact hexDecodeBytes_lt rest b hb

theorem hexDecode_lt (s : String) : ∀ b ∈ hexDecode s, b < 256 :=
  hexDecodeBytes_lt s.data

/-! ## Self-delimiting byte encodings

Used to build the idealized GCM ciphertext and tag: every encoded object
is a byte list (entries `< 256`) that can be decoded back, which gives the
injectivity that models collision-freeness of the real primitives. -/

/-- Little-endian base-255 digits of `n` (all `< 255`), with explicit fuel
so that the definition is structurally recursive and kernel-reducible.
Call with `fuel ≥ n`. -/
def natDigitsF : Nat → Nat → List Nat
  | _, 0 => []
  | 0, _ + 1 => []
  | f + 1, n + 1 => ((n + 1) % 255) :: natDigitsF f ((n + 1) / 255)

/-- Self-delimiting encoding of a `Nat`: base-255 digits terminated by the
byte `255`. -/
def encodeNat (n : Nat) : List Nat := natDigitsF n n ++ [255]

/-- Numeric value of a little-endian base-255 digit list. -/
def natOfDigits : List Nat → Nat
  | [] => 0
  | d :: ds => d + 255 * natOfDigits ds

/-- Read base-255 digits up to (and consuming) the `255` terminator. -/
def decodeNatDigits : List Nat → Option (List Nat × List Nat)
  | [] => none
  | b :: r =>
    if b = 255 then some ([], r)
    else
      match decodeNatDigits r with
      | some (ds, rest) => some (b :: ds, rest)
      | none => none

/-- Decode one self-delimited `Nat`, returning it and the remaining bytes. -/
def decodeNat (l : List Nat) : Option (Nat × List Nat) :=
  match decodeNatDigits l with
  | some (ds, rest) => some (natOfDigits ds, rest)
  | none => none

theorem natDigitsF_fuel : ∀ (f n : Nat), n ≤ f → natDigitsF f n = natDigitsF n n
  | f, 0, _ => by cases f <;> rfl
  | 0, _ + 1, h => by omega
  | f + 1, n + 1, _ => by
    have hdiv : (n + 1) / 255 < n + 1 := Nat.div_lt_self (by omega) (by omega)
    simp only [natDigitsF]
    rw [natDigitsF_fuel f ((n + 1) / 255) (by omega),
      natDigitsF_fuel n ((n + 1) / 255) (by omega)]

theorem natDigitsF_lt : ∀ (f n : Nat), ∀ d ∈ natDigitsF f n, d < 255
  | f, 0 => by cases f <;> simp [natDigitsF]
  | 0, _ + 1 => by simp [natDigitsF]
  | f + 1, n + 1 => by
    intro d hd
    simp only [natDigitsF, List.mem_cons] at hd
    rcases hd with hd | hd
    · omega
    · exact natDigitsF_lt f ((n + 1) / 255) d hd

theorem natOfDigits_natDigitsF : ∀ (f n : Nat), n ≤ f → natOfDigits (natDigitsF f n) = n
  | f, 0, _ => by cases f <;> rfl
  | 0, _ + 1, h => by omega
  | f + 1, n + 1, _ => by
    have hdiv : (n + 1) / 255 < n + 1 := Nat.div_lt_self (by omega) (by omega)
    simp only [natDigitsF, natOfDigits]
    rw [natOfDigits_natDigitsF f ((n + 1) / 255) (by omega)]
    omega

theorem decodeNatDigits_append (ds r : List Nat) (h : ∀ d ∈ ds, d ≠ 255) :
    decodeNatDigits (ds ++ 255 :: r) = some (ds, r) := by
  induction ds with
  | nil => simp [decodeNatDigits]
  | cons d tail ih =>
    have hd : d ≠ 255 := h d (List.mem_cons_self d tail)
    have htail : ∀ x ∈ tail, x ≠ 255 := fun x hx => h x (List.mem_cons_of_mem d hx)
    simp only [List.cons_append, decodeNatDigits, if_neg hd, List.append_eq]
    rw [ih htail]

/-- Decoding an encoded `Nat` recovers it and the rest of the input. -/
theorem decodeNat_encodeNat (n : Nat) (r : List Nat) :
    decodeNat (encodeNat n ++ r) = some (n, r) := by
  have hne : ∀ d ∈ natDigitsF n n, d ≠ 255 := fun d hd =>
    Nat.ne_of_lt (natDigitsF_lt n n d hd)
  simp only [encodeNat, List.append_assoc, List.cons_append, List.nil_append, decodeNat,
    decodeNatDigits_append _ _ hne, natOfDigits_natDigitsF n n le_rfl]

theorem encodeNat_lt (n : Nat) : ∀ b ∈ encodeNat n, b < 256 := by
  intro b hb
  simp only [encodeNat, List.mem_append, List.mem_singleton] at hb
  rcases hb with hb | hb
  · exact Nat.lt_of_lt_of_le (natDigitsF_lt n n b hb) (by omega)
  · omega

theorem encodeNat_ne_nil (n : Nat) : encodeNat n ≠ [] := by
  simp [encodeNat]

/-- Consuming one encoded `Nat` strictly shrinks the input. -/
theorem decodeNatDigits_length : ∀ (l : List Nat) (ds rest : List Nat),
    decodeNatDigits l = some (ds, rest) → rest.length < l.length
  | [], _, _, h => by simp [decodeNatDigits] at h
  | b :: r, ds, rest, h => by
    simp only [decodeNatDigits] at h
    by_cases hb : b = 255
    · rw [if_pos hb] at h
      simp only [Option.some.injEq, Prod.mk.injEq] at h
      obtain ⟨h1, h2⟩ := h
      rw [← h2]
      simp
    · rw [if_neg hb] at h
      cases hrec : decodeNatDigits r with
      | none => rw [hrec] at h; exact Option.noConfusion h
      | some p =>
        obtain ⟨ds', rest'⟩ := p
        rw [hrec] at h
        simp only [Option.some.injEq, Prod.mk.injEq] at h
        obtain ⟨h1, h2⟩ := h
        have hlen := decodeNatDigits_length r ds' rest' hrec
        rw [h2] at hlen
        simp only [List.length_cons]
        omega

theorem decodeNat_length {l : List Nat} {v : Nat} {rest : List Nat}
    (h : decodeNat l = some (v, rest)) : rest.length < l.length := by
  unfold decodeNat at h
  cases hd : decodeNatDigits l with
  | none => rw [hd] at h; exact Option.noConfusion h
  | some p =>
    obtain ⟨ds, r⟩ := p
    rw [hd] at h
    simp only [Option.some.injEq, Prod.mk.injEq] at h
    obtain ⟨h1, h2⟩ := h
    rw [← h2]
    exact decodeNatDigits_length l ds r hd

/-! ## Byte encoding of strings (stands in for UTF-8) -/

/-- Byte encoding of one character: its code point, self-delimited. -/
def charBytes (c : Char) : List Nat := encodeNat c.toNat

/-- Byte encoding of a character list. -/
def bytesOfCharList : List Char → List Nat
  | [] => []
  | c :: cs => charBytes c ++ bytesOfCharList cs

/-- Byte encoding of a string (the model's injective stand-in for the
UTF-8 encoding performed by `cipher.update(text, 'utf8')`). -/
def bytesOfString (s : String) : List Nat := bytesOfCharList s.data

/-- Fuel-bounded decoder for `bytesOfCharList`; fuel `≥ l.length` always
suffices because each step consumes at least one byte. -/
def charListOfBytesF : Nat → List Nat → Option (List Char)
  | _, [] => some []
  | 0, _ :: _ => none
  | f + 1, b :: r =>
    match decodeNat (b :: r) with
    | some (v, rest) =>
      match charListOfBytesF f rest with
      | some cs => some (Char.ofNat v :: cs)
      | none => none
    | none => none

/-- Total decoder of the model's byte strings back to text.  On byte lists
that are not an encoding it yields the replacement character, mirroring
how `decipher.update(..., 'utf8')` replaces malformed sequences rather
than throwing. -/
def stringOfBytes (l : List Nat) : String :=
  match charListOfBytesF l.length l with
  | some cs => String.mk cs
  | none => String.mk [Char.ofNat 0xFFFD]

theorem charListOfBytesF_mono : ∀ (f f' : Nat) (l : List Nat), l.length ≤ f → l.length ≤ f' →
    charListOfBytesF f l = charListOfBytesF f' l
  | f, f', [], _, _ => by cases f <;> cases f' <;> rfl
  | 0, _, b :: r, h, _ => by simp at h
  | _, 0, b :: r, _, h => by simp at h
  | f + 1, f' + 1, b :: r, h, h' => by
    simp only [charListOfBytesF]
    cases hd : decodeNat (b :: r) with
    | none => rfl
    | some p =>
      obtain ⟨v, rest⟩ := p
      have hlen := decodeNat_length hd
      simp only [List.length_cons] at hlen h h'
      dsimp only
      rw [charListOfBytesF_mono f f' rest (by omega) (by omega)]

/-- Decoding the encoding of a character list recovers it exactly. -/
theorem charListOfBytesF_encode (cs : List Char) (f : Nat)
    (hf : (bytesOfCharList cs).length ≤ f) :
    charListOfBytesF f (bytesOfCharList cs) = some cs := by
  induction cs generalizing f with
  | nil => cases f <;> rfl
  | cons c cs ih =>
    have hform : bytesOfCharList (c :: cs) = encodeNat c.toNat ++ bytesOfCharList cs := rfl
    have hne : bytesOfCharList (c :: cs) ≠ [] := by
      rw [hform]
      simp [encodeNat_ne_nil c.toNat]
    obtain ⟨b, r, hl⟩ := List.exists_cons_of_ne_nil hne
    have hdec : decodeNat (b :: r) = some (c.toNat, bytesOfCharList cs) := by
      rw [← hl, hform]
      exact decodeNat_encodeNat c.toNat (bytesOfCharList cs)
    have hlen : (bytesOfCharList cs).length < (b :: r).length := decodeNat_length hdec
    have hfuel : 1 ≤ f := by
      rw [hl] at hf
      simp only [List.length_cons] at hf
      omega
    obtain ⟨f', rfl⟩ : ∃ f', f = f' + 1 := ⟨f - 1, by omega⟩
    rw [hl]
    simp only [charListOfBytesF, hdec]
    rw [hl] at hf
    rw [ih f' (by simp only [List.length_cons] at hf hlen ⊢; omega)]
    simp [Char.ofNat_toNat]

/-- `stringOfBytes` inverts `bytesOfString`. -/
theorem stringOfBytes_bytesOfString (s : String) : stringOfBytes (bytesOfString s) = s := by
  unfold stringOfBytes bytesOfString
  rw [charListOfBytesF_encode s.data _ le_rfl]

theorem bytesOfCharList_lt : ∀ (cs : List Char), ∀ b ∈ bytesOfCharList cs, b < 256
  | [] => by simp [bytesOfCharList]
  | c :: cs => by
    intro b hb
    simp only [bytesOfCharList, List.mem_append] at hb
    rcases hb with hb | hb
    · exact encodeNat_lt c.toNat b hb
    · exact bytesOfCharList_lt cs b hb

theorem bytesOfString_lt (s : String) : ∀ b ∈ bytesOfString s, b < 256 :=
  bytesOfCharList_lt s.data

/-- `bytesOfString` is injective (two distinct texts never share an
encoding). -/
theorem bytesOfString_injective {s t : String} (h : bytesOfString s = bytesOfString t) :
    s = t := by
  have hs := stringOfBytes_bytesOfString s
  have ht := stringOfBytes_bytesOfString t
  rw [h] at hs
  rw [ht] at hs
  exact hs.symm

/-! ## Length-prefixed blocks -/

/-- A length-prefixed block: the length (self-delimited) followed by the
raw bytes. -/
def encodeBlock (l : List Nat) : List Nat := encodeNat l.length ++ l

/-- Decode one length-prefixed block, returning it and the rest. -/
def decodeBlock (l : List Nat) : Option (List Nat × List Nat) :=
  match decodeNat l with
  | some (n, r) => if n ≤ r.length then some (r.take n, r.drop n) else none
  | none => none

theorem decodeBlock_encodeBlock (bs r : List Nat) :
    decodeBlock (encodeBlock bs ++ r) = some (bs, r) := by
  unfold decodeBlock encodeBlock
  rw [List.append_assoc, decodeNat_encodeNat bs.length (bs ++ r)]
  simp only [if_pos (by simp : bs.length ≤ (bs ++ r).length)]
  rw [List.take_left, List.drop_left]

theorem encodeBlock_lt (l : List Nat) (h : ∀ b ∈ l, b < 256) :
    ∀ b ∈ encodeBlock l, b < 256 := by
  intro b hb
  simp only [encodeBlock, List.mem_append] at hb
  rcases hb with hb | hb
  · exact encodeNat_lt l.length b hb
  · exact h b hb

/-! ## Idealized PBKDF2 and AES-256-GCM (`deriveKey`, `encrypt`, `decrypt`) -/

/-- Idealized `crypto.pbkdf2Sync(password, salt, 100000, 32, 'sha512')`:
deterministic in (password, salt) and collision-free, modeled as the pair
itself. -/
structure DerivedKey where
  password : String
  salt : List Nat
deriving DecidableEq

/-- The derivation function proper (used by both the sync and async
paths; both call PBKDF2 with identical parameters). -/
def pbkdf2 (password : String) (salt : List Nat) : DerivedKey := ⟨password, salt⟩

/-- Idealized GCM authentication tag over (key, iv, ciphertext), where the
key is `pbkdf2 password salt`: an injective byte encoding, standing in for
the overwhelming-probability collision-freeness of real GCM tags. -/
def gcmTag (password : String) (salt iv ct : List Nat) : List Nat :=
  encodeBlock (bytesOfString password) ++ encodeBlock salt ++ encodeBlock iv ++ ct

/-- The envelope produced by `encrypt` and persisted in the store:
`{ encrypted, iv, salt, tag }`, all hex strings. -/
structure EncryptedData where
  encrypted : String
  iv : String
  salt : String
  tag : String
deriving DecidableEq

/-- Failures of `decrypt`.  In the source these are exceptions thrown by
`createDecipheriv` / `setAuthTag` / `decipher.final()` and caught at each
call site; the model returns them as values. -/
inductive DecryptError where
  /-- `createDecipheriv` rejects an empty GCM IV. -/
  | invalidIV
  /-- The authentication tag does not match (`decipher.final()` throws). -/
  | authFailure
deriving DecidableEq

/-- `encrypt(text, masterPassword)` from src/main.js, with the outputs of
the two `crypto.randomBytes` calls passed explicitly. -/
def encrypt (text : String) (masterPassword : String) (salt iv : List Nat) : EncryptedData :=
  let ct := bytesOfString text
  { encrypted := hexEncode ct
    iv := hexEncode iv
    salt := hexEncode salt
    tag := hexEncode (gcmTag masterPassword salt iv ct) }

/-- `decrypt(encryptedData, masterPassword)` from src/main.js (the async
variant `decryptAsync` computes the same function).  Fields are decoded
with Node's lenient hex decoding; the key is derived from the password and
the decoded salt; plaintext is released iff the stored tag authenticates
the decoded ciphertext under that key and IV. -/
def decrypt (encryptedData : EncryptedData) (masterPassword : String) :
    Except DecryptError String :=
  let saltB := hexDecode encryptedData.salt
  let key := pbkdf2 masterPassword saltB
  let ivB := hexDecode encryptedData.iv
  if ivB = [] then .error .invalidIV
  else
    let tagB := hexDecode encryptedData.tag
    let ctB := hexDecode encryptedData.encrypted
    if tagB = gcmTag key.password key.salt ivB ctB then .ok (stringOfBytes ctB)
    else .error .authFailure

theorem gcmTag_lt (password : String) (salt iv ct : List Nat)
    (hs : ∀ b ∈ salt, b < 256) (hiv : ∀ b ∈ iv, b < 256) (hct : ∀ b ∈ ct, b < 256) :
    ∀ b ∈ gcmTag password salt iv ct, b < 256 := by
  intro b hb
  simp only [gcmTag, List.mem_append] at hb
  rcases hb with ((hb | hb) | hb) | hb
  · exact encodeBlock_lt _ (bytesOfString_lt password) b hb
  · exact encodeBlock_lt _ hs b hb
  · exact encodeBlock_lt _ hiv b hb
  · exact hct b hb

/-- The idealized tag determines all of its inputs. -/
theorem gcmTag_injective {p₁ p₂ : String} {s₁ s₂ i₁ i₂ c₁ c₂ : List Nat}
    (h : gcmTag p₁ s₁ i₁ c₁ = gcmTag p₂ s₂ i₂ c₂) :
    p₁ = p₂ ∧ s₁ = s₂ ∧ i₁ = i₂ ∧ c₁ = c₂ := by
  unfold gcmTag at h
  have h1 : decodeBlock (encodeBlock (bytesOfString p₁) ++
      (encodeBlock s₁ ++ (encodeBlock i₁ ++ c₁))) =
      decodeBlock (encodeBlock (bytesOfString p₂) ++
      (encodeBlock s₂ ++ (encodeBlock i₂ ++ c₂))) := by
    simp only [← List.append_assoc]
    rw [h]
  rw [decodeBlock_encodeBlock, decodeBlock_encodeBlock] at h1
  simp only [Option.some.injEq, Prod.mk.injEq] at h1
  obtain ⟨hp, h1⟩ := h1
  have h2 : decodeBlock (encodeBlock s₁ ++ (encodeBlock i₁ ++ c₁)) =
      decodeBlock (encodeBlock s₂ ++ (encodeBlock i₂ ++ c₂)) := by rw [h1]
  rw [decodeBlock_encodeBlock, decodeBlock_encodeBlock] at h2
  simp only [Option.some.injEq, Prod.mk.injEq] at h2
  obtain ⟨hsalt, h2⟩ := h2
  have h3 : decodeBlock (encodeBlock i₁ ++ c₁) = decodeBlock (encodeBlock i₂ ++ c₂) := by
    rw [h2]
  rw [decodeBlock_encodeBlock, decodeBlock_encodeBlock] at h3
  simp only [Option.some.injEq, Prod.mk.injEq] at h3
  obtain ⟨hiv, hc⟩ := h3
  exact ⟨bytesOfString_injective hp, hsalt, hiv, hc⟩

/-- Decrypting an honestly produced envelope with the same password
recovers the plaintext (the core of claim C1). -/
theorem decrypt_encrypt (text masterPassword : String) (salt iv : List Nat)
    (hs : ∀ b ∈ salt, b < 256) (hiv : ∀ b ∈ iv, b < 256) (hiv0 : iv ≠ []) :
    decrypt (encrypt text masterPassword salt iv) masterPassword = .ok text := by
  unfold decrypt encrypt
  simp only
  rw [hexDecode_hexEncode iv hiv, hexDecode_hexEncode salt hs,
    hexDecode_hexEncode _ (bytesOfString_lt text),
    hexDecode_hexEncode _ (gcmTag_lt masterPassword salt iv _ hs hiv (bytesOfString_lt text))]
  simp only [pbkdf2]
  rw [if_neg hiv0, if_pos trivial, stringOfBytes_bytesOfString]

/-- Decrypting an honestly produced envelope with any other password fails
with an authentication failure. -/
theorem decrypt_encrypt_wrong_password (text w w' : String) (salt iv : List Nat)
    (hs : ∀ b ∈ salt, b < 256) (hiv : ∀ b ∈ iv, b < 256) (hiv0 : iv ≠ [])
    (hw : w' ≠ w) :
    decrypt (encrypt text w salt iv) w' = .error .authFailure := by
  unfold decrypt encrypt
  simp only
  rw [hexDecode_hexEncode iv hiv, hexDecode_hexEncode salt hs,
    hexDecode_hexEncode _ (bytesOfString_lt text),
    hexDecode_hexEncode _ (gcmTag_lt w salt iv _ hs hiv (bytesOfString_lt text))]
  simp only [pbkdf2]
  rw [if_neg hiv0, if_neg (fun hcontra => hw (gcmTag_injective hcontra).1.symm)]

/-! ## Key cache (`keyCache`, `deriveKey`, `deriveKeyAsync`) -/

/-- `cacheKey = password + ':' + salt.toString('hex')`. -/
def cacheKey (password : String) (salt : List Nat) : String :=
  password ++ ":" ++ hexEncode salt

/-- The shared `keyCache` `Map`, as an insertion-ordered association list
(keys are unique, as in a JS `Map`). -/
def KeyCache : Type := List (String × DerivedKey)

/-- `keyCache.get` / `keyCache.has`. -/
def cacheLookup : List (String × DerivedKey) → String → Option DerivedKey
  | [], _ => none
  | (k, v) :: rest, key => if k = key then some v else cacheLookup rest key

/-- `keyCache.delete(key)`: removes the entry with the given key. -/
def cacheDeleteKey : List (String × DerivedKey) → String → List (String × DerivedKey)
  | [], _ => []
  | (k, v) :: rest, key => if k = key then rest else (k, v) :: cacheDeleteKey rest key

/-- `keyCache.keys().next().value` — the least-recently-inserted key. -/
def cacheFirstKey : List (String × DerivedKey) → Option String
  | [] => none
  | (k, _) :: _ => some k

/-- The eviction step `if (keyCache.size > limit) keyCache.delete(firstKey)`. -/
def cacheEvictIfOver (limit : Nat) (c : List (String × DerivedKey)) :
    List (String × DerivedKey) :=
  if c.length > limit then
    match cacheFirstKey c with
    | some k => cacheDeleteKey c k
    | none => c
  else c

/-- One call to the cached derivation (`deriveKey` has `limit = 100`,
`deriveKeyAsync` has `limit = 5000`; both consult and mutate the same
shared cache). -/
def deriveKeyCached (limit : Nat) (c : List (String × DerivedKey))
    (password : String) (salt : List Nat) : DerivedKey × List (String × DerivedKey) :=
  let key := cacheKey password salt
  match cacheLookup c key with
  | some k => (k, c)
  | none =>
    let derived := pbkdf2 password salt
    (derived, cacheEvictIfOver limit (c ++ [(key, derived)]))

/-- A derive call on the shared cache: the synchronous single-record path
(`deriveKey`, threshold 100) or the asynchronous bulk path
(`deriveKeyAsync`, threshold 5000). -/
inductive DeriveCall where
  | sync (password : String) (salt : List Nat)
  | bulk (password : String) (salt : List Nat)

/-- The cache threshold used by a call. -/
def DeriveCall.limit : DeriveCall → Nat
  | .sync _ _ => 100
  | .bulk _ _ => 5000

/-- Run one derive call against the cache. -/
def deriveStep (c : List (String × DerivedKey)) : DeriveCall → List (String × DerivedKey)
  | .sync password salt => (deriveKeyCached 100 c password salt).2
  | .bulk password salt => (deriveKeyCached 5000 c password salt).2

/-- Run a sequence of derive calls against the cache. -/
def deriveTrace (c : List (String × DerivedKey)) : List DeriveCall → List (String × DerivedKey)
  | [] => c
  | call :: rest => deriveTrace (deriveStep c call) rest

/-! ## Vault state and IPC handlers -/

/-- One element of the persisted `vault` array: `{ id, data }`.  Ids are
JS numbers (`Date.now()`, possibly plus `Math.random()`), modeled as
rationals. -/
structure VaultEntry where
  id : ℚ
  data : EncryptedData
deriving DecidableEq

/-- The persisted store: the `vaultCheck` envelope and the `vault` array. -/
structure VaultState where
  vaultCheck : EncryptedData
  vault : List VaultEntry
deriving DecidableEq

/-- The `create-vault` handler: encrypts the sentinel `'vault-check'` and
resets the record collection. -/
def createVault (masterPassword : String) (salt iv : List Nat) : VaultState :=
  { vaultCheck := encrypt "vault-check" masterPassword salt iv
    vault := [] }

/-- The `unlock-vault` handler: decrypt `vaultCheck`, compare with the
sentinel; any decrypt failure is caught and yields `false`. -/
def unlockVault (st : VaultState) (masterPassword : String) : Bool :=
  match decrypt st.vaultCheck masterPassword with
  | .ok r => r = "vault-check"
  | .error _ => false

/-- The `save-password` handler: appends `{ id: Date.now(), data: encrypt(...) }`
and returns the new id.  No password verification of any kind is
performed. -/
def savePassword (st : VaultState) (now : Nat) (masterPassword payload : String)
    (salt iv : List Nat) : ℚ × VaultState :=
  let entry : VaultEntry := ⟨(now : ℚ), encrypt payload masterPassword salt iv⟩
  ((now : ℚ), { st with vault := st.vault ++ [entry] })

/-- The `delete-password` handler: filters out the matching id and returns
`true` unconditionally. -/
def deletePassword (st : VaultState) (id : ℚ) : Bool × VaultState :=
  (true, { st with vault := st.vault.filter (fun item => item.id ≠ id) })

/-- The `update-password` handler: `findIndex` on the id; `-1` yields
`false` with no write, otherwise the entry is replaced in place.  No
password verification is performed. -/
def updatePassword (st : VaultState) (id : ℚ) (masterPassword payload : String)
    (salt iv : List Nat) : Bool × VaultState :=
  match st.vault.findIdx? (fun item => item.id = id) with
  | none => (false, st)
  | some index =>
    (true, { st with vault := st.vault.set index ⟨id, encrypt payload masterPassword salt iv⟩ })

/-- The `clear-vault` handler: re-verifies the master password against
`vaultCheck` (failures caught), and only on success resets `vault` to `[]`. -/
def clearVault (st : VaultState) (masterPassword : String) : Bool × VaultState :=
  match decrypt st.vaultCheck masterPassword with
  | .ok r =>
    if r = "vault-check" then (true, { st with vault := [] })
    else (false, st)
  | .error _ => (false, st)

/-- One row of the `import-passwords` loop: its `Date.now()` sample, its
`Math.random()` sample and the parsed CSV payload, plus the randomness the
row's `encrypt` call consumes. -/
structure ImportRow where
  now : Nat
  rand : ℚ
  payload : String
  salt : List Nat
  iv : List Nat

/-- The vault mutation performed by the `import-passwords` handler: each
row is appended as `{ id: Date.now() + Math.random(), data: encrypt(...) }`. -/
def importPasswords (st : VaultState) (masterPassword : String) (rows : List ImportRow) :
    VaultState :=
  { st with
    vault := st.vault ++ rows.map (fun r =>
      ⟨(r.now : ℚ) + r.rand, encrypt r.payload masterPassword r.salt r.iv⟩) }

/-! ## The batched decrypt pipeline (`get-passwords`) -/

/-- An event sent to the renderer over the two streaming channels. -/
inductive PipelineEvent where
  /-- `event.sender.send('passwords-batch', validResults)`. -/
  | batch (items : List (ℚ × String))
  /-- `event.sender.send('passwords-complete')`. -/
  | complete
deriving DecidableEq

/-- Decrypt one vault entry as the pipeline does: `decryptAsync` plus the
per-item `try/catch` that maps any failure to `null` (here `none`). -/
def decryptItem (masterPassword : String) (e : VaultEntry) : Option (ℚ × String) :=
  match decrypt e.data masterPassword with
  | .ok s => some (e.id, s)
  | .error _ => none

/-- `slice(i, i + 10)` chunking of the vault (fuel-bounded structural
recursion; fuel `≥ l.length` suffices). -/
def chunksF (f : Nat) (l : List VaultEntry) : List (List VaultEntry) :=
  match f, l with
  | _, [] => []
  | 0, _ :: _ => []
  | f + 1, a :: rest => (a :: rest.take 9) :: chunksF f (rest.drop 9)

/-- The batches of size 10 (last one possibly shorter) that the
`for (let i = 0; i < length; i += batchSize)` loop slices, in order. -/
def chunks (l : List VaultEntry) : List (List VaultEntry) := chunksF l.length l

/-- The events the loop body emits for the chunk list: a `batch` event per
chunk with at least one surviving record (`if (validResults.length > 0)`),
nothing for chunks where every record failed. -/
def pipelineEvents (masterPassword : String) : List (List VaultEntry) → List PipelineEvent
  | [] => []
  | chunk :: rest =>
    (let valid := chunk.filterMap (decryptItem masterPassword)
     if valid = [] then [] else [PipelineEvent.batch valid]) ++
    pipelineEvents masterPassword rest

/-- The `get-passwords` handler: empty (or missing) vault returns
`{ items: [], total: 0 }` immediately and the async pipeline never starts,
so no events at all are sent; otherwise the total is returned and the
pipeline emits the batch events followed by one `passwords-complete`. -/
def getPasswords (vault : List VaultEntry) (masterPassword : String) :
    Nat × List PipelineEvent :=
  if vault.length = 0 then (0, [])
  else (vault.length, pipelineEvents masterPassword (chunks vault) ++ [PipelineEvent.complete])

/-! ## Pipeline lemmas -/

theorem chunksF_flatten : ∀ (f : Nat) (l : List VaultEntry), l.length ≤ f →
    (chunksF f l).flatten = l
  | f, [], _ => by cases f <;> rfl
  | 0, _ :: _, h => by simp at h
  | f + 1, a :: rest, h => by
    simp only [chunksF, List.flatten_cons]
    rw [chunksF_flatten f (rest.drop 9)
      (by simp only [List.length_cons] at h; simp [List.length_drop]; omega)]
    simp [List.take_append_drop]

/-- The chunks slice the vault in order. -/
theorem chunks_flatten (l : List VaultEntry) : (chunks l).flatten = l :=
  chunksF_flatten l.length l le_rfl

theorem chunksF_mem : ∀ (f : Nat) (l : List VaultEntry) (c : List VaultEntry),
    c ∈ chunksF f l → c.length ≤ 10 ∧ c ≠ []
  | f, [], c => by cases f <;> simp [chunksF]
  | 0, _ :: _, c => by simp [chunksF]
  | f + 1, a :: rest, c => by
    intro hc
    simp only [chunksF, List.mem_cons] at hc
    rcases hc with hc | hc
    · subst hc
      constructor
      · simp only [List.length_cons]
        have := List.length_take_le 9 rest
        omega
      · simp
    · exact chunksF_mem f (rest.drop 9) c hc

/-- Every emitted chunk has between 1 and 10 records. -/
theorem chunks_mem (l : List VaultEntry) (c : List VaultEntry) (hc : c ∈ chunks l) :
    c.length ≤ 10 ∧ c ≠ [] :=
  chunksF_mem l.length l c hc

/-- `decryptItem` yields the entry's own id on success. -/
theorem decryptItem_fst {masterPassword : String} {e : VaultEntry} {p : ℚ × String}
    (h : decryptItem masterPassword e = some p) : p.1 = e.id := by
  unfold decryptItem at h
  cases hd : decrypt e.data masterPassword with
  | ok s => rw [hd] at h; injection h with h'; rw [← h']
  | error err => rw [hd] at h; exact Option.noConfusion h

/-- The pipeline loop never sends `passwords-complete`; that event is sent
once, after the loop. -/
theorem pipelineEvents_ne_complete (masterPassword : String) :
    ∀ (cl : List (List VaultEntry)), ∀ ev ∈ pipelineEvents masterPassword cl,
      ev ≠ PipelineEvent.complete
  | [] => by simp [pipelineEvents]
  | chunk :: rest => by
    intro ev hev
    simp only [pipelineEvents, List.mem_append] at hev
    rcases hev with hev | hev
    · split at hev
      · simp at hev
      · simp only [List.mem_singleton] at hev
        subst hev
        exact fun hcontra => PipelineEvent.noConfusion hcontra
    · exact pipelineEvents_ne_complete masterPassword rest ev hev

/-- When every record of every chunk decrypts, the loop emits exactly one
batch per chunk, in order, containing that chunk's decrypted records. -/
theorem pipelineEvents_all_valid (masterPassword : String) :
    ∀ (cl : List (List VaultEntry)),
      (∀ c ∈ cl, ∀ e ∈ c, (decryptItem masterPassword e).isSome) →
      (∀ c ∈ cl, c ≠ []) →
      pipelineEvents masterPassword cl =
        cl.map (fun c => PipelineEvent.batch (c.filterMap (decryptItem masterPassword)))
  | [] => by simp [pipelineEvents]
  | chunk :: rest => by
    intro hvalid hne
    have hchunk : chunk ≠ [] := hne chunk (List.mem_cons_self chunk rest)
    have hv : ∀ e ∈ chunk, (decryptItem masterPassword e).isSome :=
      hvalid chunk (List.mem_cons_self chunk rest)
    have hnonnil : chunk.filterMap (decryptItem masterPassword) ≠ [] := by
      obtain ⟨e, es, rfl⟩ := List.exists_cons_of_ne_nil hchunk
      have := hv e (List.mem_cons_self e es)
      obtain ⟨p, hp⟩ := Option.isSome_iff_exists.mp this
      simp [List.filterMap_cons, hp]
    simp only [pipelineEvents, List.map_cons, if_neg hnonnil]
    rw [pipelineEvents_all_valid masterPassword rest
      (fun c hc => hvalid c (List.mem_cons_of_mem chunk hc))
      (fun c hc => hne c (List.mem_cons_of_mem chunk hc))]
    rfl

/-- The lists of records carried by the batch events of an event stream. -/
def batchLists (events : List PipelineEvent) : List (List (ℚ × String)) :=
  events.filterMap (fun ev =>
    match ev with
    | PipelineEvent.batch b => some b
    | PipelineEvent.complete => none)

theorem batchLists_append (evs evs' : List PipelineEvent) :
    batchLists (evs ++ evs') = batchLists evs ++ batchLists evs' := by
  simp [batchLists, List.filterMap_append]

/-- On an all-valid list the filterMap keeps one result per element. -/
theorem filterMap_map_fst : ∀ (l : List VaultEntry) (masterPassword : String),
    (∀ e ∈ l, (decryptItem masterPassword e).isSome) →
    (l.filterMap (decryptItem masterPassword)).map Prod.fst = l.map VaultEntry.id
  | [], _, _ => rfl
  | e :: rest, masterPassword, h => by
    have he := h e (List.mem_cons_self e rest)
    obtain ⟨p, hp⟩ := Option.isSome_iff_exists.mp he
    simp only [List.filterMap_cons, hp, List.map_cons]
    rw [filterMap_map_fst rest masterPassword (fun x hx => h x (List.mem_cons_of_mem e hx))]
    rw [decryptItem_fst hp]

/-! ## Claims -/

/-- C1: for every plaintext string P and every password W, decrypting the
envelope produced by `encrypt(P, W)` with the same password W returns
exactly P.  The salt and IV are the `crypto.randomBytes(32)` /
`crypto.randomBytes(16)` outputs consumed by `encrypt`. -/
theorem claim_C1_roundtrip (text masterPassword : String) (salt iv : List Nat)
    (hs : ∀ b ∈ salt, b < 256) (_hslen : salt.length = 32)
    (hiv : ∀ b ∈ iv, b < 256) (hivlen : iv.length = 16) :
    decrypt (encrypt text masterPassword salt iv) masterPassword = Except.ok text :=
  decrypt_encrypt text masterPassword salt iv hs hiv
    (fun hcontra => by rw [hcontra] at hivlen; simp at hivlen)

theorem claim_C1_witness :
    decrypt (encrypt "secret123" "Tr0ub4dor" (List.replicate 32 0) (List.replicate 16 1))
      "Tr0ub4dor" = Except.ok "secret123" :=
  claim_C1_roundtrip "secret123" "Tr0ub4dor" (List.replicate 32 0) (List.replicate 16 1)
    (by decide) (by decide) (by decide) (by decide)

/-- C3 (amended): `get-passwords` on an empty vault returns
`{ items: [], total: 0 }` synchronously and emits nothing at all — no
batches and also no completion signal, because the early return skips the
async pipeline entirely (the renderer compensates by tearing down its
listeners itself when `total === 0`). -/
theorem claim_C3_empty_vault (masterPassword : String) :
    getPasswords [] masterPassword = (0, []) := rfl

/-- C3 counterexample: the claim asserts that an empty vault produces an
immediate completion signal; in fact no `passwords-complete` event is
emitted at all. -/
theorem claim_C3_counterexample :
    PipelineEvent.complete ∉ (getPasswords ([] : List VaultEntry) "pw").2 := by
  decide

/-- Helper: flattening per-chunk `filterMap` results is the `filterMap` of
the flattened chunks. -/
theorem flatten_map_filterMap (d : VaultEntry → Option (ℚ × String)) :
    ∀ (cl : List (List VaultEntry)),
      (cl.map (fun c => c.filterMap d)).flatten = cl.flatten.filterMap d
  | [] => rfl
  | c :: rest => by
    simp only [List.map_cons, List.flatten_cons, List.filterMap_append]
    rw [flatten_map_filterMap d rest]

/-- Helper: an all-valid nonempty chunk keeps at least one record. -/
theorem filterMap_decryptItem_ne_nil {masterPassword : String} {c : List VaultEntry}
    (hne : c ≠ []) (hv : ∀ e ∈ c, (decryptItem masterPassword e).isSome) :
    c.filterMap (decryptItem masterPassword) ≠ [] := by
  obtain ⟨e, es, rfl⟩ := List.exists_cons_of_ne_nil hne
  have := hv e (List.mem_cons_self e es)
  obtain ⟨p, hp⟩ := Option.isSome_iff_exists.mp this
  simp [List.filterMap_cons, hp]

/-- C2 (amended, requires at least one record): for a vault of N ≥ 1
records that all decrypt under the given password, `get-passwords` returns
total = N and the pipeline emits exactly one batch per collection-order
chunk of ≤ 10 records; the concatenation of the emitted batches is the
decryption of the full collection in order (so their union is the full
record set, without duplicates), every batch is nonempty with ≤ 10 items,
and the completion signal is emitted exactly once, after the last batch.
(For N = 0 the pipeline never starts and no completion signal is sent;
see the counterexample.) -/
theorem claim_C2_batch_completeness (vault : List VaultEntry) (masterPassword : String)
    (hne : vault ≠ [])
    (hvalid : ∀ e ∈ vault, (decryptItem masterPassword e).isSome) :
    (getPasswords vault masterPassword).1 = vault.length ∧
    (getPasswords vault masterPassword).2 =
      (chunks vault).map
        (fun c => PipelineEvent.batch (c.filterMap (decryptItem masterPassword))) ++
      [PipelineEvent.complete] ∧
    (batchLists (getPasswords vault masterPassword).2).flatten =
      vault.filterMap (decryptItem masterPassword) ∧
    (batchLists (getPasswords vault masterPassword).2).flatten.map Prod.fst =
      vault.map VaultEntry.id ∧
    (∀ b ∈ batchLists (getPasswords vault masterPassword).2, b.length ≤ 10 ∧ b ≠ []) ∧
    (∃ evs, (getPasswords vault masterPassword).2 = evs ++ [PipelineEvent.complete] ∧
      PipelineEvent.complete ∉ evs) := by
  have hlen : vault.length ≠ 0 := fun hcontra => hne (List.length_eq_zero.mp hcontra)
  have hchunkvalid : ∀ c ∈ chunks vault, ∀ e ∈ c, (decryptItem masterPassword e).isSome := by
    intro c hc e he
    exact hvalid e (by rw [← chunks_flatten vault]; exact List.mem_flatten.mpr ⟨c, hc, he⟩)
  have hchunkne : ∀ c ∈ chunks vault, c ≠ [] := fun c hc => (chunks_mem vault c hc).2
  have hevents : (getPasswords vault masterPassword).2 =
      (chunks vault).map
        (fun c => PipelineEvent.batch (c.filterMap (decryptItem masterPassword))) ++
      [PipelineEvent.complete] := by
    simp only [getPasswords, if_neg hlen]
    rw [pipelineEvents_all_valid masterPassword (chunks vault) hchunkvalid hchunkne]
  have hbl : batchLists (getPasswords vault masterPassword).2 =
      (chunks vault).map (fun c => c.filterMap (decryptItem masterPassword)) := by
    rw [hevents, batchLists_append]
    simp only [batchLists, List.filterMap_map]
    have h1 : List.filterMap
        ((fun ev => match ev with
          | PipelineEvent.batch b => some b
          | PipelineEvent.complete => none) ∘
          fun c => PipelineEvent.batch (c.filterMap (decryptItem masterPassword)))
        (chunks vault) =
        (chunks vault).map (fun c => c.filterMap (decryptItem masterPassword)) := by
      rw [List.filterMap_eq_map_iff_forall_eq_some.mpr]
      intro c _
      rfl
    rw [h1]
    simp
  have hflat : (batchLists (getPasswords vault masterPassword).2).flatten =
      vault.filterMap (decryptItem masterPassword) := by
    rw [hbl, flatten_map_filterMap, chunks_flatten]
  refine ⟨?_, hevents, hflat, ?_, ?_, ?_⟩
  · simp only [getPasswords, if_neg hlen]
  · rw [hflat]
    exact filterMap_map_fst vault masterPassword hvalid
  · intro b hb
    rw [hbl] at hb
    simp only [List.mem_map] at hb
    obtain ⟨c, hc, rfl⟩ := hb
    refine ⟨le_trans (List.length_filterMap_le _ _) (chunks_mem vault c hc).1, ?_⟩
    exact filterMap_decryptItem_ne_nil (chunks_mem vault c hc).2 (hchunkvalid c hc)
  · refine ⟨(chunks vault).map
      (fun c => PipelineEvent.batch (c.filterMap (decryptItem masterPassword))), hevents, ?_⟩
    simp only [List.mem_map]
    rintro ⟨c, _, hcontra⟩
    exact PipelineEvent.noConfusion hcontra

theorem claim_C2_witness :
    ∃ evs,
      (getPasswords [⟨1, encrypt "x" "a" [0] [1]⟩] "a").2 = evs ++ [PipelineEvent.complete] ∧
      PipelineEvent.complete ∉ evs :=
  (claim_C2_batch_completeness [⟨1, encrypt "x" "a" [0] [1]⟩] "a"
    (by decide) (by decide)).2.2.2.2.2

/-- C2 counterexample: a vault of N = 0 records (created with the correct
password, so trivially "all envelopes valid") emits no completion signal
at all, so the completion signal does not fire exactly once. -/
theorem claim_C2_counterexample :
    (∀ e ∈ (createVault "a" [0] [1]).vault, (decryptItem "a" e).isSome) ∧
    PipelineEvent.complete ∉ (getPasswords (createVault "a" [0] [1]).vault "a").2 := by
  constructor
  · decide
  · decide

/-- C10: the batch sink never receives an empty batch — a chunk whose
records all fail to decrypt emits no `passwords-batch` event at all, so
fewer than ⌈total/10⌉ batch events may be sent while the single completion
signal still fires at the end (witnessed concretely by a one-record vault
whose envelope is structurally invalid, which yields total = 1 and the
event stream `[passwords-complete]`). -/
theorem claim_C10_empty_batches :
    (∀ (masterPassword : String) (chunk : List VaultEntry) (rest : List (List VaultEntry)),
      (∀ e ∈ chunk, decryptItem masterPassword e = none) →
      pipelineEvents masterPassword (chunk :: rest) = pipelineEvents masterPassword rest) ∧
    (∀ (vault : List VaultEntry) (masterPassword : String), vault ≠ [] →
      ∃ evs, (getPasswords vault masterPassword).2 = evs ++ [PipelineEvent.complete] ∧
        PipelineEvent.complete ∉ evs) ∧
    (∀ masterPassword : String,
      getPasswords [⟨0, ⟨"", "", "", ""⟩⟩] masterPassword = (1, [PipelineEvent.complete])) := by
  refine ⟨?_, ?_, ?_⟩
  · intro masterPassword chunk rest hfail
    have hnil : chunk.filterMap (decryptItem masterPassword) = [] :=
      List.filterMap_eq_nil_iff.mpr hfail
    simp [pipelineEvents, hnil]
  · intro vault masterPassword hne
    have hlen : vault.length ≠ 0 := fun hcontra => hne (List.length_eq_zero.mp hcontra)
    refine ⟨pipelineEvents masterPassword (chunks vault), ?_, ?_⟩
    · simp only [getPasswords, if_neg hlen]
    · intro hcontra
      exact pipelineEvents_ne_complete masterPassword (chunks vault)
        PipelineEvent.complete hcontra rfl
  · intro masterPassword
    rfl

theorem claim_C10_witness :
    pipelineEvents "a" [[⟨0, ⟨"", "", "", ""⟩⟩]] = pipelineEvents "a" [] ∧
    (∃ evs, (getPasswords [⟨0, ⟨"", "", "", ""⟩⟩] "a").2 = evs ++ [PipelineEvent.complete] ∧
      PipelineEvent.complete ∉ evs) :=
  ⟨claim_C10_empty_batches.1 "a" [⟨0, ⟨"", "", "", ""⟩⟩] [] (by decide),
   claim_C10_empty_batches.2.1 [⟨0, ⟨"", "", "", ""⟩⟩] "a" (by decide)⟩

/-- C4: `clear-vault` re-verifies the password exactly like `unlock-vault`
does: on a password that fails verification it returns failure and leaves
the state untouched; on the verifying password it succeeds, empties the
record collection and leaves the `vaultCheck` envelope intact.  For a
vault created by `create-vault` with password W₀, W₀ verifies and any
other password fails verification. -/
theorem claim_C4_clear_vault :
    (∀ (st : VaultState) (w : String), unlockVault st w = false →
      clearVault st w = (false, st)) ∧
    (∀ (st : VaultState) (w : String), unlockVault st w = true →
      clearVault st w = (true, { st with vault := [] }) ∧
      (clearVault st w).2.vaultCheck = st.vaultCheck) ∧
    (∀ (w0 w : String) (salt iv : List Nat) (records : List VaultEntry),
      (∀ b ∈ salt, b < 256) → (∀ b ∈ iv, b < 256) → iv ≠ [] →
      unlockVault ⟨(createVault w0 salt iv).vaultCheck, records⟩ w0 = true ∧
      (w ≠ w0 → unlockVault ⟨(createVault w0 salt iv).vaultCheck, records⟩ w = false)) := by
  refine ⟨?_, ?_, ?_⟩
  · intro st w hver
    unfold unlockVault at hver
    unfold clearVault
    cases hd : decrypt st.vaultCheck w with
    | ok r =>
      rw [hd] at hver
      simp only [decide_eq_false_iff_not] at hver
      simp [if_neg hver]
    | error e => rfl
  · intro st w hver
    unfold unlockVault at hver
    unfold clearVault
    cases hd : decrypt st.vaultCheck w with
    | ok r =>
      rw [hd] at hver
      simp only [decide_eq_true_eq] at hver
      simp only [if_pos hver]
      exact ⟨trivial, trivial⟩
    | error e => rw [hd] at hver; exact Bool.noConfusion hver
  · intro w0 w salt iv records hs hiv hiv0
    constructor
    · unfold unlockVault
      simp only [createVault]
      rw [decrypt_encrypt "vault-check" w0 salt iv hs hiv hiv0]
      rfl
    · intro hw
      unfold unlockVault
      simp only [createVault]
      rw [decrypt_encrypt_wrong_password "vault-check" w0 w salt iv hs hiv hiv0 hw]

theorem claim_C4_witness :
    clearVault (createVault "a" [0] [1]) "b" = (false, createVault "a" [0] [1]) ∧
    clearVault (createVault "a" [0] [1]) "a" =
      (true, { createVault "a" [0] [1] with vault := [] }) :=
  ⟨claim_C4_clear_vault.1 (createVault "a" [0] [1]) "b" (by decide),
   (claim_C4_clear_vault.2.1 (createVault "a" [0] [1]) "a" (by decide)).1⟩

/-- C5 (amended): `update-password` on an id absent from the vault is a
no-op returning `false`, but `delete-password` on an absent id — while
also leaving the collection unchanged — returns `true`, not `false`: the
handler returns `true` unconditionally.  Neither throws. -/
theorem claim_C5_unknown_id (st : VaultState) (id : ℚ) (masterPassword payload : String)
    (salt iv : List Nat) (h : ∀ e ∈ st.vault, e.id ≠ id) :
    updatePassword st id masterPassword payload salt iv = (false, st) ∧
    deletePassword st id = (true, st) := by
  constructor
  · unfold updatePassword
    have hnone : st.vault.findIdx? (fun item => item.id = id) = none := by
      rw [List.findIdx?_eq_none_iff]
      intro e he
      simp [h e he]
    rw [hnone]
  · unfold deletePassword
    have hfilter : st.vault.filter (fun item => item.id ≠ id) = st.vault :=
      List.filter_eq_self.mpr (fun e he => by simp [h e he])
    rw [hfilter]

theorem claim_C5_witness :
    updatePassword ⟨⟨"", "", "", ""⟩, [⟨2, ⟨"", "", "", ""⟩⟩]⟩ 1 "a" "x" [0] [1] =
      (false, ⟨⟨"", "", "", ""⟩, [⟨2, ⟨"", "", "", ""⟩⟩]⟩) ∧
    deletePassword ⟨⟨"", "", "", ""⟩, [⟨2, ⟨"", "", "", ""⟩⟩]⟩ 1 =
      (true, ⟨⟨"", "", "", ""⟩, [⟨2, ⟨"", "", "", ""⟩⟩]⟩) :=
  claim_C5_unknown_id ⟨⟨"", "", "", ""⟩, [⟨2, ⟨"", "", "", ""⟩⟩]⟩ 1 "a" "x" [0] [1] (by decide)

/-- C5 counterexample: `delete-password` on an unknown id returns `true`
(the handler's `return true` is unconditional), not the claimed `false`. -/
theorem claim_C5_counterexample :
    deletePassword ⟨⟨"", "", "", ""⟩, []⟩ 1 = (true, ⟨⟨"", "", "", ""⟩, []⟩) := by
  decide

/-- C9: neither `save-password` nor `update-password` verifies the master
password.  For any vault state (here with a check envelope created under
W₀) and any password W — in particular W ≠ W₀ — `save-password` raises no
error, appends an entry encrypted under W and returns its id;
`update-password` on a present id likewise replaces the entry with one
encrypted under W and returns `true`.  The resulting envelope decrypts
under W but fails with an authentication failure under the vault's
original master password W₀. -/
theorem claim_C9_no_password_check (w0 w payload : String)
    (salt0 iv0 salt iv : List Nat) (records : List VaultEntry) (now : Nat)
    (id : ℚ) (d : EncryptedData) (rest : List VaultEntry)
    (hs : ∀ b ∈ salt, b < 256) (hiv : ∀ b ∈ iv, b < 256) (hiv0 : iv ≠ [])
    (hw : w ≠ w0) :
    savePassword ⟨(createVault w0 salt0 iv0).vaultCheck, records⟩ now w payload salt iv =
      ((now : ℚ), ⟨(createVault w0 salt0 iv0).vaultCheck,
        records ++ [⟨(now : ℚ), encrypt payload w salt iv⟩]⟩) ∧
    updatePassword ⟨(createVault w0 salt0 iv0).vaultCheck, ⟨id, d⟩ :: rest⟩ id w payload
        salt iv =
      (true, ⟨(createVault w0 salt0 iv0).vaultCheck,
        ⟨id, encrypt payload w salt iv⟩ :: rest⟩) ∧
    decrypt (encrypt payload w salt iv) w = Except.ok payload ∧
    decrypt (encrypt payload w salt iv) w0 = Except.error DecryptError.authFailure := by
  refine ⟨rfl, ?_, ?_, ?_⟩
  · unfold updatePassword
    have hfind : (⟨id, d⟩ :: rest : List VaultEntry).findIdx?
        (fun item => item.id = id) = some 0 := by
      simp [List.findIdx?]
    rw [hfind]
    rfl
  · exact decrypt_encrypt payload w salt iv hs hiv hiv0
  · exact decrypt_encrypt_wrong_password payload w w0 salt iv hs hiv hiv0 (Ne.symm hw)

theorem claim_C9_witness :
    decrypt (encrypt "x" "b" [2] [3]) "b" = Except.ok "x" ∧
    decrypt (encrypt "x" "b" [2] [3]) "a" = Except.error DecryptError.authFailure :=
  ⟨(claim_C9_no_password_check "a" "b" "x" [0] [1] [2] [3] [] 7 9 ⟨"", "", "", ""⟩ []
      (by decide) (by decide) (by decide) (by decide)).2.2.1,
   (claim_C9_no_password_check "a" "b" "x" [0] [1] [2] [3] [] 7 9 ⟨"", "", "", ""⟩ []
      (by decide) (by decide) (by decide) (by decide)).2.2.2⟩

/-- C8 (amended): `import-passwords` assigns each imported record the id
`Date.now() + Math.random()`, but `save-password` assigns plain
`Date.now()` with no random component, so ids are unique only as long as
the underlying (time, random) values are fresh; two saves falling in the
same millisecond collide (see the counterexample). -/
theorem claim_C8_record_ids (st : VaultState) (now : Nat) (masterPassword payload : String)
    (salt iv : List Nat) (rows : List ImportRow) :
    (savePassword st now masterPassword payload salt iv).1 = (now : ℚ) ∧
    (savePassword st now masterPassword payload salt iv).2.vault.map VaultEntry.id =
      st.vault.map VaultEntry.id ++ [(now : ℚ)] ∧
    (importPasswords st masterPassword rows).vault.map VaultEntry.id =
      st.vault.map VaultEntry.id ++ rows.map (fun r => (r.now : ℚ) + r.rand) ∧
    ((∀ e ∈ st.vault, e.id ≠ (now : ℚ)) → (st.vault.map VaultEntry.id).Nodup →
      ((savePassword st now masterPassword payload salt iv).2.vault.map VaultEntry.id).Nodup) := by
  refine ⟨rfl, ?_, ?_, ?_⟩
  · simp [savePassword]
  · simp [importPasswords, List.map_map]
  · intro hfresh hnodup
    simp only [savePassword, List.map_append, List.map_cons, List.map_nil]
    rw [List.nodup_append]
    refine ⟨hnodup, List.nodup_singleton _, ?_⟩
    intro x hx
    simp only [List.mem_map] at hx
    obtain ⟨e, he, rfl⟩ := hx
    simp [hfresh e he]

theorem claim_C8_witness :
    ((savePassword ⟨⟨"", "", "", ""⟩, [⟨1, ⟨"", "", "", ""⟩⟩]⟩ 5 "a" "x" [0] [1]).2.vault.map
      VaultEntry.id).Nodup :=
  (claim_C8_record_ids ⟨⟨"", "", "", ""⟩, [⟨1, ⟨"", "", "", ""⟩⟩]⟩ 5 "a" "x" [0] [1] []).2.2.2
    (by decide) (by decide)

/-- C8 counterexample: `save-password` ids carry no random component —
the id is exactly `Date.now()` — so two saves in the same millisecond
produce two distinct records with identical ids, violating id uniqueness. -/
theorem claim_C8_counterexample :
    (savePassword ⟨⟨"", "", "", ""⟩, []⟩ 5 "a" "x" [0] [1]).1 = (5 : ℚ) ∧
    ((savePassword (savePassword ⟨⟨"", "", "", ""⟩, []⟩ 5 "a" "x" [0] [1]).2
        5 "a" "y" [0] [1]).2.vault.map VaultEntry.id = [(5 : ℚ), (5 : ℚ)]) ∧
    ¬ ((savePassword (savePassword ⟨⟨"", "", "", ""⟩, []⟩ 5 "a" "x" [0] [1]).2
        5 "a" "y" [0] [1]).2.vault.map VaultEntry.id).Nodup := by
  refine ⟨rfl, by decide, by decide⟩

/-- C6 (amended): `decrypt` always yields a typed, catchable result — a
failure or a plaintext — and fails whenever the leniently decoded IV is
empty or the leniently decoded tag does not authenticate the leniently
decoded ciphertext under the derived key.  Because Node decodes hex
leniently (ignoring everything from the first non-hex character and a
trailing odd nibble), a malformed-hex field does not by itself force a
failure: if the decoded prefix still authenticates, `decrypt` succeeds
and returns the plaintext of the decoded ciphertext (see the
counterexample); it never crashes or returns unauthenticated plaintext. -/
theorem claim_C6_decrypt_failures :
    (∀ (env : EncryptedData) (masterPassword : String),
      hexDecode env.iv = [] →
      decrypt env masterPassword = Except.error DecryptError.invalidIV) ∧
    (∀ (env : EncryptedData) (masterPassword : String),
      hexDecode env.iv ≠ [] →
      hexDecode env.tag ≠
        gcmTag masterPassword (hexDecode env.salt) (hexDecode env.iv)
          (hexDecode env.encrypted) →
      decrypt env masterPassword = Except.error DecryptError.authFailure) ∧
    (∀ (env : EncryptedData) (masterPassword : String),
      (∃ e, decrypt env masterPassword = Except.error e) ∨
      (hexDecode env.tag =
        gcmTag masterPassword (hexDecode env.salt) (hexDecode env.iv)
          (hexDecode env.encrypted) ∧
       decrypt env masterPassword = Except.ok (stringOfBytes (hexDecode env.encrypted)))) := by
  refine ⟨?_, ?_, ?_⟩
  · intro env masterPassword hiv
    unfold decrypt
    rw [if_pos hiv]
  · intro env masterPassword hiv htag
    unfold decrypt
    rw [if_neg hiv]
    simp only [pbkdf2]
    rw [if_neg htag]
  · intro env masterPassword
    unfold decrypt
    by_cases hiv : hexDecode env.iv = []
    · exact Or.inl ⟨DecryptError.invalidIV, by rw [if_pos hiv]⟩
    · rw [if_neg hiv]
      simp only [pbkdf2]
      by_cases htag : hexDecode env.tag =
          gcmTag masterPassword (hexDecode env.salt) (hexDecode env.iv)
            (hexDecode env.encrypted)
      · exact Or.inr ⟨htag, by rw [if_pos htag]⟩
      · exact Or.inl ⟨DecryptError.authFailure, by rw [if_neg htag]⟩

theorem claim_C6_witness :
    decrypt ⟨"", "", "", ""⟩ "a" = Except.error DecryptError.invalidIV ∧
    decrypt { encrypt "x" "a" [0] [1] with tag := "" } "a" =
      Except.error DecryptError.authFailure :=
  ⟨claim_C6_decrypt_failures.1 ⟨"", "", "", ""⟩ "a" rfl,
   claim_C6_decrypt_failures.2.1 { encrypt "x" "a" [0] [1] with tag := "" } "a"
     (by decide) (by decide)⟩

/-- C6 counterexample: an envelope whose `tag` field is malformed hex
(trailing non-hex characters) nevertheless decrypts successfully, because
Node's lenient hex decoding silently drops the garbage and the remaining
prefix still authenticates — contradicting "for every envelope whose ...
tag ... field is malformed hex ..., decrypt fails". -/
theorem claim_C6_counterexample :
    ¬ validHex ((encrypt "x" "a" [0] [1]).tag ++ "zz") ∧
    decrypt { encrypt "x" "a" [0] [1] with tag := (encrypt "x" "a" [0] [1]).tag ++ "zz" } "a"
      = Except.ok "x" := by
  constructor
  · intro hcontra
    obtain ⟨hall, _⟩ := hcontra
    have hz : 'z' ∈ ((encrypt "x" "a" [0] [1]).tag ++ "zz").data := by decide
    have := hall 'z' hz
    simp [hexVal?] at this
  · rfl

/-! ## C7: key-cache lemmas -/

/-- Splitting at the last separator: if the suffixes are separator-free,
a separated concatenation determines both parts. -/
theorem append_colon_inj : ∀ (a b x y : List Char), ':' ∉ x → ':' ∉ y →
    a ++ ':' :: x = b ++ ':' :: y → a = b ∧ x = y
  | [], [], x, y, _, _, h => by
    simp only [List.nil_append, List.cons.injEq] at h
    exact ⟨rfl, h.2⟩
  | [], c :: b', x, y, hx, _, h => by
    simp only [List.nil_append, List.cons_append, List.cons.injEq] at h
    exact absurd (h.2 ▸ List.mem_append_right b' (List.mem_cons_self ':' y)) hx
  | c :: a', [], x, y, _, hy, h => by
    simp only [List.nil_append, List.cons_append, List.cons.injEq] at h
    exact absurd (h.2.symm ▸ List.mem_append_right a' (List.mem_cons_self ':' x)) hy
  | c :: a', c' :: b', x, y, hx, hy, h => by
    simp only [List.cons_append, List.cons.injEq] at h
    obtain ⟨hc, hrest⟩ := h
    obtain ⟨ha, hxy⟩ := append_colon_inj a' b' x y hx hy hrest
    exact ⟨by rw [hc, ha], hxy⟩

theorem colon_not_mem_hexEncodeBytes : ∀ (l : List Nat), ':' ∉ hexEncodeBytes l
  | [] => by simp [hexEncodeBytes]
  | b :: rest => by
    intro hmem
    simp only [hexEncodeBytes, List.mem_cons] at hmem
    rcases hmem with hmem | hmem | hmem
    · exact hexDigitChar_ne_colon (Nat.mod_lt _ (by omega)) hmem.symm
    · exact hexDigitChar_ne_colon (Nat.mod_lt _ (by omega)) hmem.symm
    · exact colon_not_mem_hexEncodeBytes rest hmem

/-- `password + ':' + salt.toString('hex')` determines the (password,
salt) pair: the hex part never contains `':'`, so the split at the last
colon is unambiguous even for passwords containing `':'`. -/
theorem cacheKey_injective {p₁ p₂ : String} {s₁ s₂ : List Nat}
    (hs₁ : ∀ b ∈ s₁, b < 256) (hs₂ : ∀ b ∈ s₂, b < 256)
    (h : cacheKey p₁ s₁ = cacheKey p₂ s₂) : p₁ = p₂ ∧ s₁ = s₂ := by
  have hdata : p₁.data ++ ':' :: hexEncodeBytes s₁ = p₂.data ++ ':' :: hexEncodeBytes s₂ := by
    have := congrArg String.data h
    simpa [cacheKey, String.data_append, hexEncode] using this
  obtain ⟨hp, hhex⟩ := append_colon_inj p₁.data p₂.data _ _
    (colon_not_mem_hexEncodeBytes s₁) (colon_not_mem_hexEncodeBytes s₂) hdata
  constructor
  · have := congrArg String.mk hp
    simpa using this
  · rw [← hexDecodeBytes_encode s₁ hs₁, ← hexDecodeBytes_encode s₂ hs₂, hhex]

theorem cacheEvictIfOver_eq (limit : Nat) (c : List (String × DerivedKey)) :
    cacheEvictIfOver limit c = if c.length > limit then c.tail else c := by
  unfold cacheEvictIfOver
  cases c with
  | nil => split <;> rfl
  | cons kv rest =>
    obtain ⟨k, v⟩ := kv
    split <;> simp [cacheFirstKey, cacheDeleteKey]

/-- One cached derive call either hits (cache unchanged), or appends the
new entry, or appends it and evicts exactly the least-recently-inserted
entry (the head of the insertion-ordered list). -/
theorem deriveKeyCached_shape (limit : Nat) (c : List (String × DerivedKey))
    (password : String) (salt : List Nat) :
    (deriveKeyCached limit c password salt).2 = c ∨
    (∃ e, (deriveKeyCached limit c password salt).2 = c ++ [e]) ∨
    (∃ e, (deriveKeyCached limit c password salt).2 = (c ++ [e]).tail) := by
  cases hl : cacheLookup c (cacheKey password salt) with
  | some k =>
    left
    simp only [deriveKeyCached, hl]
  | none =>
    simp only [deriveKeyCached, hl]
    rw [cacheEvictIfOver_eq]
    split
    · exact Or.inr (Or.inr ⟨_, rfl⟩)
    · exact Or.inr (Or.inl ⟨_, rfl⟩)

theorem deriveKeyCached_length (limit : Nat) (c : List (String × DerivedKey))
    (password : String) (salt : List Nat) :
    (deriveKeyCached limit c password salt).2.length ≤ max c.length limit := by
  cases hl : cacheLookup c (cacheKey password salt) with
  | some k =>
    simp only [deriveKeyCached, hl]
    exact le_max_left _ _
  | none =>
    simp only [deriveKeyCached, hl]
    rw [cacheEvictIfOver_eq]
    split
    · rename_i hgt
      have htl : ((c ++ [(cacheKey password salt, pbkdf2 password salt)]).tail).length =
          c.length := by
        simp [List.length_tail]
      rw [htl]
      exact le_max_left _ _
    · rename_i hnot
      simp only [List.length_append, List.length_cons, List.length_nil, gt_iff_lt,
        not_lt] at hnot ⊢
      exact le_trans (by omega) (le_max_right _ _)

theorem deriveStep_shape (c : List (String × DerivedKey)) (call : DeriveCall) :
    deriveStep c call = c ∨ (∃ e, deriveStep c call = c ++ [e]) ∨
      (∃ e, deriveStep c call = (c ++ [e]).tail) := by
  cases call with
  | sync password salt => exact deriveKeyCached_shape 100 c password salt
  | bulk password salt => exact deriveKeyCached_shape 5000 c password salt

theorem deriveStep_length (c : List (String × DerivedKey)) (call : DeriveCall) :
    (deriveStep c call).length ≤ max c.length call.limit := by
  cases call with
  | sync password salt => exact deriveKeyCached_length 100 c password salt
  | bulk password salt => exact deriveKeyCached_length 5000 c password salt

theorem deriveTrace_length_le (L : Nat) : ∀ (calls : List DeriveCall)
    (c : List (String × DerivedKey)),
    (∀ call ∈ calls, call.limit ≤ L) → c.length ≤ L → (deriveTrace c calls).length ≤ L
  | [], _, _, hc => hc
  | call :: rest, c, hcalls, hc => by
    simp only [deriveTrace]
    refine deriveTrace_length_le L rest _
      (fun cl hcl => hcalls cl (List.mem_cons_of_mem call hcl)) ?_
    exact le_trans (deriveStep_length c call)
      (max_le hc (hcalls call (List.mem_cons_self call rest)))

/-- C7 (amended): the cache is an insertion-ordered mapping genuinely
keyed by the (password, salt) pair; every derive call at most appends one
entry and, when it evicts, evicts exactly the least-recently-inserted
entry; a call never grows the cache beyond max(previous size, its own
threshold), so any mixed trace from an empty cache stays ≤ 5000 entries
and a trace of synchronous calls only stays ≤ 100.  The two thresholds
are *not* independent bounds on the shared cache, however: a synchronous
call made after the asynchronous path has grown the shared cache beyond
100 evicts only one entry and leaves the size above 100 (see the
counterexample). -/
theorem claim_C7_cache :
    (∀ (p₁ p₂ : String) (s₁ s₂ : List Nat), (∀ b ∈ s₁, b < 256) → (∀ b ∈ s₂, b < 256) →
      cacheKey p₁ s₁ = cacheKey p₂ s₂ → p₁ = p₂ ∧ s₁ = s₂) ∧
    (∀ (c : List (String × DerivedKey)) (call : DeriveCall),
      deriveStep c call = c ∨ (∃ e, deriveStep c call = c ++ [e]) ∨
        (∃ e, deriveStep c call = (c ++ [e]).tail)) ∧
    (∀ (c : List (String × DerivedKey)) (call : DeriveCall),
      (deriveStep c call).length ≤ max c.length call.limit) ∧
    (∀ calls : List DeriveCall, (deriveTrace [] calls).length ≤ 5000) ∧
    (∀ calls : List DeriveCall, (∀ call ∈ calls, call.limit = 100) →
      (deriveTrace [] calls).length ≤ 100) :=
  ⟨fun _ _ _ _ h₁ h₂ h => cacheKey_injective h₁ h₂ h,
   deriveStep_shape,
   deriveStep_length,
   fun calls => deriveTrace_length_le 5000 calls []
     (fun call _ => by cases call <;> simp [DeriveCall.limit]) (by simp),
   fun calls hsync => deriveTrace_length_le 100 calls []
     (fun call hcall => le_of_eq (hsync call hcall)) (by simp)⟩

theorem claim_C7_witness :
    (deriveTrace [] [DeriveCall.sync "p" [0]]).length ≤ 100 :=
  claim_C7_cache.2.2.2.2 [DeriveCall.sync "p" [0]] (by decide)

set_option maxRecDepth 8000

/-- 101 distinct bulk (`deriveKeyAsync`) derivations: the shared cache
grows to 101 entries because the bulk threshold is 5000. -/
def bulkFill : List DeriveCall := (List.range 101).map (fun i => DeriveCall.bulk "p" [i])

/-- C7 counterexample: the two thresholds are not independent per-path
bounds on the cache.  After 101 asynchronous derivations a synchronous
`deriveKey` call (threshold 100) inserts its entry and evicts only one,
leaving the shared cache at 101 > 100 entries — so "the cache size never
exceeds its capacity threshold, a small one (100) for the synchronous
single-record path" is false right after a synchronous call. -/
theorem claim_C7_counterexample :
    100 < (deriveTrace [] (bulkFill ++ [DeriveCall.sync "p" [101]])).length := by
  decide
